import Mathlib

/-!
Verification of the FocusFlow bionic-reading annotation engine
(`src/components/Reader.tsx`).  Strings are modelled as lists of Unicode
scalar values (`List Char`); every character class and every branch below
is transcribed from the source file.  `Math.ceil(n / 2)`,
`Math.ceil(n * 0.6)` and `Math.ceil(n * 0.7)` on IEEE doubles agree with
the integer ceilings `⌈n/2⌉`, `⌈3n/5⌉` and `⌈7n/10⌉` for every string
length `n < 2^50` (the factors 0.6 and 0.7 round below the exact rational,
and the product rounds to a value that is never strictly above the exact
integer multiple), so the bold-length arithmetic is embedded with exact
natural-number ceiling division.
-/

namespace FocusFlow

/-- Character strings, as lists of Unicode scalar values. -/
abbrev Str := List Char

/-- Membership in the JavaScript `\w` class `[A-Za-z0-9_]`
(`Reader.tsx` regexes, lines 37 and 74). -/
def isWordChar (c : Char) : Bool :=
  decide ((0x41 ≤ c.toNat ∧ c.toNat ≤ 0x5A) ∨ (0x61 ≤ c.toNat ∧ c.toNat ≤ 0x7A) ∨
    (0x30 ≤ c.toNat ∧ c.toNat ≤ 0x39) ∨ c.toNat = 0x5F)

/-- Membership in the core word-character class
`[\wÀ-ſ一-鿿'-]` of the Latin tokenizer regex
(`Reader.tsx` line 74). -/
def isCoreChar (c : Char) : Bool :=
  isWordChar c || decide ((0xC0 ≤ c.toNat ∧ c.toNat ≤ 0x17F) ∨
    (0x4E00 ≤ c.toNat ∧ c.toNat ≤ 0x9FFF) ∨ c.toNat = 0x27 ∨ c.toNat = 0x2D)

/-- Test of a single scalar against `/[一-龥]/`
(`isChineseChar`, `Reader.tsx` line 10). -/
def isChineseChar (c : Char) : Bool :=
  decide (0x4E00 ≤ c.toNat ∧ c.toNat ≤ 0x9FA5)

/-- Test whether a string contains a CJK ideograph in U+4E00..U+9FA5
(`hasChinese`, `Reader.tsx` line 11). -/
def hasChinese (s : Str) : Bool := s.any isChineseChar

/-- Characters removed by JavaScript `String.prototype.trim`
(used by the `!word.trim()` whitespace check, `Reader.tsx` line 34). -/
def isJsSpace (c : Char) : Bool :=
  decide (c.toNat = 0x20 ∨ c.toNat = 0x9 ∨ c.toNat = 0xA ∨ c.toNat = 0xB ∨
    c.toNat = 0xC ∨ c.toNat = 0xD ∨ c.toNat = 0xA0 ∨ c.toNat = 0x1680 ∨
    (0x2000 ≤ c.toNat ∧ c.toNat ≤ 0x200A) ∨ c.toNat = 0x2028 ∨ c.toNat = 0x2029 ∨
    c.toNat = 0x202F ∨ c.toNat = 0x205F ∨ c.toNat = 0x3000 ∨ c.toNat = 0xFEFF)

/-- Ceiling division `⌈a / b⌉` on naturals; `ceilDiv L 2`, `ceilDiv (3*L) 5`
and `ceilDiv (7*L) 10` embed `Math.ceil(L/2)`, `Math.ceil(L*0.6)` and
`Math.ceil(L*0.7)` exactly (see the file header for the float argument). -/
def ceilDiv (a b : Nat) : Nat := (a + b - 1) / b

/-- Latin-mode bold length for a core of length `L` under strength `S`,
transcribing the sequential overwrites of `Reader.tsx` lines 85-88. -/
def latinBold (L : Nat) (S : Int) : Nat :=
  let b1 : Nat := 1
  let b2 : Nat := if 3 < L then ceilDiv L 2 else b1
  let b3 : Nat := if L ≤ 3 ∧ 2 ≤ S then 1 else b2
  if S = 3 then ceilDiv (3 * L) 5 else b3

/-- CJK-mode bold length for a word segment of length `L` under strength
`S`, transcribing the sequential overwrites of `Reader.tsx` lines 47-50. -/
def cjkBold (L : Nat) (S : Int) : Nat :=
  let b1 : Nat := 1
  let b2 : Nat := if 2 ≤ L then ceilDiv L 2 else b1
  let b3 : Nat := if S = 1 then 1 else b2
  if S = 3 then ceilDiv (7 * L) 10 else b3

/-- One annotated segment: surrounding non-word characters in `leading`
and `trailing`, the core split into its `bold` head and `normal` tail.
This is the spec's Segment record; the rendered spans of `Reader.tsx`
lines 55-59 and 93-100 carry exactly these four text pieces. -/
structure Segment where
  leading : Str
  bold : Str
  normal : Str
  trailing : Str
deriving DecidableEq

/-- Concatenated text of a segment, `leading ++ bold ++ normal ++ trailing`. -/
def segText (s : Segment) : Str := s.leading ++ s.bold ++ s.normal ++ s.trailing

/-- Worker for `splitSp`: JavaScript `paragraph.split(' ')` splits at every
single space character, keeping empty pieces (`Reader.tsx` line 71). -/
def splitSpGo (cur : Str) : Str → List Str
  | [] => [cur]
  | c :: cs => if c = ' ' then cur :: splitSpGo [] cs else splitSpGo (cur ++ [c]) cs

/-- JavaScript `paragraph.split(' ')` (`Reader.tsx` line 71). -/
def splitSp (s : Str) : List Str := splitSpGo [] s

/-- Worker for `splitNl`: JavaScript `text.split(/\n+/)` splits at every
maximal run of newline characters; `inRun` records whether the previous
character belonged to the current newline run (`Reader.tsx` lines 17, 125). -/
def splitNlGo (inRun : Bool) (cur : Str) : Str → List Str
  | [] => [cur]
  | c :: cs =>
    if c = '\n' then
      if inRun then splitNlGo true cur cs else cur :: splitNlGo true [] cs
    else splitNlGo false (cur ++ [c]) cs

/-- JavaScript `text.split(/\n+/)` (`Reader.tsx` lines 17 and 125):
pieces between maximal newline runs, including an empty leading piece
when the text starts with a newline, an empty trailing piece when it ends
with one, and `[""]` on the empty string. -/
def splitNl (s : Str) : List Str := splitNlGo false [] s

/-- Attempt of the token regex `^(\W*)([\wÀ-ſ一-鿿'-]+)(\W*)$`
(`Reader.tsx` line 74) with the leading `\W*` group fixed to exactly `k`
characters: the core group greedily takes the maximal run of core
characters, and the remainder must consist of `\W` characters only. -/
def attemptAt (w : Str) (k : Nat) : Option (Str × Str × Str) :=
  let core := (w.drop k).takeWhile isCoreChar
  let suf := (w.drop k).dropWhile isCoreChar
  if core ≠ [] ∧ suf.all (fun c => !isWordChar c) then some (w.take k, core, suf)
  else none

/-- Backtracking search of the token regex: the greedy `\W*` group tries
the longest leading run first and gives characters back one at a time
(`Reader.tsx` line 74). -/
def searchMatch (w : Str) : Nat → Option (Str × Str × Str)
  | 0 => attemptAt w 0
  | k + 1 =>
    match attemptAt w (k + 1) with
    | some r => some r
    | none => searchMatch w k

/-- Result of `word.match(/^(\W*)([\wÀ-ſ一-鿿'-]+)(\W*)$/)`
(`Reader.tsx` line 74): the leading group is the longest prefix of the
maximal `\W` run that still lets the whole pattern succeed. -/
def matchToken (w : Str) : Option (Str × Str × Str) :=
  searchMatch w ((w.takeWhile (fun c => !isWordChar c)).length)

/-- Latin-mode processing of one space-delimited token (`Reader.tsx`
lines 72-107): a matched token becomes
`leading / bold core head / normal core tail / trailing`; the dead
empty-core branch (line 79) and an unmatched token both pass the token
through unannotated. -/
def latinToken (strength : Int) (w : Str) : Segment :=
  match matchToken w with
  | some (pre, core, suf) =>
    if core = [] then ⟨[], [], w, []⟩
    else
      let bl := latinBold core.length strength
      ⟨pre, core.take bl, core.drop bl, suf⟩
  | none => ⟨[], [], w, []⟩

/-- Text content actually emitted for one Latin-mode token, including the
single space the JSX appends after every token — matched (line 98
`{suffix}{' '}`), empty-core (line 81) and unmatched (line 105) alike. -/
def latinTokenEmitted (strength : Int) (w : Str) : Str :=
  match matchToken w with
  | some (pre, core, suf) =>
    if core = [] then w ++ [' ']
    else
      let bl := latinBold core.length strength
      pre ++ core.take bl ++ core.drop bl ++ suf ++ [' ']
  | none => w ++ [' ']

/-- CJK-mode processing of one word segment (`Reader.tsx` lines 32-60):
all-whitespace segments and segments containing neither a CJK ideograph
nor a `\w` character pass through; every other segment is split at the
CJK bold length. -/
def cjkSegment (strength : Int) (w : Str) : Segment :=
  if w.all isJsSpace then ⟨[], [], w, []⟩
  else if !w.any isChineseChar && !w.any isWordChar then ⟨[], [], w, []⟩
  else
    let bl := cjkBold w.length strength
    ⟨[], w.take bl, w.drop bl, []⟩

/-- Fallback segmentation used when no `Intl.Segmenter` is available:
one segment per character (`Reader.tsx` line 29). -/
def charSegment (p : Str) : List Str := p.map (fun c => [c])

/-- Processing of one paragraph (`Reader.tsx` lines 19-115): CJK mode when
the paragraph contains a U+4E00..U+9FA5 ideograph, Latin mode otherwise.
`segf` is the word-segmentation facility (`Intl.Segmenter` when present,
`charSegment` otherwise). -/
def processPara (segf : Str → List Str) (strength : Int) (p : Str) : List Segment :=
  if hasChinese p then (segf p).map (cjkSegment strength)
  else (splitSp p).map (latinToken strength)

/-- The transformation of `Reader.tsx` lines 14-116, generic in the CJK
segmentation facility: empty text yields no paragraphs (line 15), other
text is split on newline runs and each paragraph processed per mode. -/
def transformWith (segf : Str → List Str) (text : Str) (strength : Int) :
    List (List Segment) :=
  if text = [] then [] else (splitNl text).map (processPara segf strength)

/-- `transformToBionic` (`Reader.tsx` line 14) with the character-fallback
segmentation. -/
def transformToBionic (text : Str) (strength : Int) : List (List Segment) :=
  transformWith charSegment text strength

/-- The caller-visible entry point (`Reader`, `Reader.tsx` lines 120-128),
generic in the CJK segmentation facility: with bionic enabled it runs the
transformation, otherwise it splits on newline runs and renders every
paragraph as one pass-through segment (lines 125-127). -/
def annotateWith (segf : Str → List Str) (text : Str) (enabled : Bool)
    (strength : Int) : List (List Segment) :=
  if enabled then transformWith segf text strength
  else (splitNl text).map (fun p => [⟨[], [], p, []⟩])

/-- The caller-visible entry point with the character-fallback segmentation. -/
def annotate (text : Str) (enabled : Bool) (strength : Int) : List (List Segment) :=
  annotateWith charSegment text enabled strength

/-- Join of a token list with one space between adjacent tokens — the
Latin-mode inter-segment separator of the spec's reconstruction property. -/
def joinSp : List Str → Str
  | [] => []
  | [x] => x
  | x :: y :: t => x ++ ' ' :: joinSp (y :: t)

/-- Reconstruction of a paragraph from its segments, joined with the
mode-appropriate separator: nothing between CJK segments, one space
between Latin tokens. -/
def reconstructPara (cjk : Bool) (segs : List Segment) : Str :=
  if cjk then (segs.map segText).flatten else joinSp (segs.map segText)

/-- Number of maximal newline runs in a string, with `inRun` recording
whether the previous character was a newline (proof helper for the
length of `splitNlGo`). -/
def nlRunsGo (inRun : Bool) : Str → Nat
  | [] => 0
  | c :: cs =>
    if c = '\n' then (if inRun then nlRunsGo true cs else 1 + nlRunsGo true cs)
    else nlRunsGo false cs

/-- Number of maximal newline-delimited non-empty runs of a string, with
`inWord` recording whether the previous character was a non-newline. -/
def neRunsGo (inWord : Bool) : Str → Nat
  | [] => 0
  | c :: cs =>
    if c = '\n' then neRunsGo false cs
    else (if inWord then neRunsGo true cs else 1 + neRunsGo true cs)

/-- Number of maximal newline-delimited non-empty runs of a string — the
count the spec's paragraph-count invariant refers to. -/
def nonEmptyRuns (s : Str) : Nat := neRunsGo false s

/-! ### Helper lemmas about the tokenizer -/

theorem attemptAt_some {w : Str} {k : Nat} {pre core suf : Str}
    (h : attemptAt w k = some (pre, core, suf)) :
    pre ++ core ++ suf = w ∧ core ≠ [] := by
  simp only [attemptAt] at h
  split at h
  · rename_i hcond
    obtain ⟨rfl, rfl, rfl⟩ : w.take k = pre ∧ (w.drop k).takeWhile isCoreChar = core ∧
        (w.drop k).dropWhile isCoreChar = suf := by
      simpa using h
    refine ⟨?_, hcond.1⟩
    rw [List.append_assoc, List.takeWhile_append_dropWhile, List.take_append_drop]
  · exact absurd h (by simp)

theorem searchMatch_some {w : Str} {pre core suf : Str} :
    ∀ k, searchMatch w k = some (pre, core, suf) →
      pre ++ core ++ suf = w ∧ core ≠ [] := by
  intro k
  induction k with
  | zero => exact fun h => attemptAt_some h
  | succ k ih =>
    intro h
    unfold searchMatch at h
    cases ha : attemptAt w (k + 1) with
    | some r => rw [ha] at h; cases h; exact attemptAt_some ha
    | none => rw [ha] at h; exact ih h

theorem matchToken_some {w : Str} {pre core suf : Str}
    (h : matchToken w = some (pre, core, suf)) :
    pre ++ core ++ suf = w ∧ core ≠ [] :=
  searchMatch_some _ h

theorem segText_latinToken (strength : Int) (w : Str) :
    segText (latinToken strength w) = w := by
  unfold latinToken
  cases h : matchToken w with
  | none => simp [segText]
  | some r =>
    obtain ⟨pre, core, suf⟩ := r
    obtain ⟨hw, hc⟩ := matchToken_some h
    by_cases hcc : core = []
    · simp [hcc, segText]
    · simp only [hcc, if_neg, ite_false, segText]
      rw [← hw]
      simp [List.take_append_drop]

theorem segText_cjkSegment (strength : Int) (w : Str) :
    segText (cjkSegment strength w) = w := by
  unfold cjkSegment
  split_ifs <;> simp [segText]

theorem joinSp_nil : joinSp [] = [] := rfl

theorem joinSp_single (x : Str) : joinSp [x] = x := rfl

theorem joinSp_cons₂ (x y : Str) (t : List Str) :
    joinSp (x :: y :: t) = x ++ ' ' :: joinSp (y :: t) := rfl

theorem splitSpGo_ne_nil (s : Str) : ∀ cur, splitSpGo cur s ≠ [] := by
  induction s with
  | nil => intro cur; simp [splitSpGo]
  | cons c cs ih =>
    intro cur
    by_cases hc : c = ' ' <;> simp [splitSpGo, hc, ih]

theorem joinSp_splitSpGo (s : Str) : ∀ cur, joinSp (splitSpGo cur s) = cur ++ s := by
  induction s with
  | nil => intro cur; simp [splitSpGo, joinSp]
  | cons c cs ih =>
    intro cur
    by_cases hc : c = ' '
    · subst hc
      have hstep : splitSpGo cur (' ' :: cs) = cur :: splitSpGo [] cs := by
        simp [splitSpGo]
      rw [hstep]
      obtain ⟨x, xs, hx⟩ : ∃ x xs, splitSpGo ([] : Str) cs = x :: xs := by
        cases h : splitSpGo ([] : Str) cs with
        | nil => exact absurd h (splitSpGo_ne_nil cs [])
        | cons x xs => exact ⟨x, xs, rfl⟩
      rw [hx, joinSp_cons₂, ← hx, ih]
      simp
    · rw [splitSpGo]
      simp only [if_neg hc]
      rw [ih]
      simp

theorem joinSp_splitSp (s : Str) : joinSp (splitSp s) = s := by
  simpa using joinSp_splitSpGo s []

theorem charSegment_flatten (p : Str) : (charSegment p).flatten = p := by
  induction p with
  | nil => rfl
  | cons c cs ih => simp [charSegment, List.flatten] at ih ⊢; exact ih

/-! ### Claim theorems -/

/-- C1.  For every Latin-mode core word of length `L ≥ 1` and strength
`S ∈ {1,2,3}`, the computed bold length is `1` when `L ≤ 3` and
`S ∈ {1,2}`, `⌈L/2⌉` when `L > 3` and `S ∈ {1,2}`, and `⌈L·0.6⌉`
whenever `S = 3`, regardless of `L`. -/
theorem latin_bold_table (L : Nat) (S : Int) (hL : 1 ≤ L)
    (hS : S = 1 ∨ S = 2 ∨ S = 3) :
    latinBold L S =
      if S = 3 then ceilDiv (3 * L) 5 else if L ≤ 3 then 1 else ceilDiv L 2 := by
  rcases hS with rfl | rfl | rfl
  all_goals simp only [latinBold, ceilDiv]
  all_goals split_ifs
  all_goals omega

/-- Witness for C1: a length-5 core at strength 2 is bolded to `⌈5/2⌉ = 3`. -/
theorem latin_bold_table_witness :
    latinBold 5 2 = if (2 : Int) = 3 then ceilDiv (3 * 5) 5 else
      if 5 ≤ 3 then 1 else ceilDiv 5 2 :=
  latin_bold_table 5 2 (by decide) (Or.inr (Or.inl rfl))

/-- C2.  For every CJK-mode word segment of length `L ≥ 1` and strength
`S ∈ {1,2,3}`, the computed bold length is `1` when `S = 1`, `⌈L·0.7⌉`
when `S = 3`, and otherwise the baseline: `1` when `L = 1` and `⌈L/2⌉`
when `L ≥ 2`. -/
theorem cjk_bold_table (L : Nat) (S : Int) (hL : 1 ≤ L)
    (hS : S = 1 ∨ S = 2 ∨ S = 3) :
    cjkBold L S =
      if S = 1 then 1 else if S = 3 then ceilDiv (7 * L) 10 else
        if L = 1 then 1 else ceilDiv L 2 := by
  rcases hS with rfl | rfl | rfl
  all_goals simp only [cjkBold, ceilDiv]
  all_goals split_ifs
  all_goals omega

/-- Witness for C2: a length-4 segment at strength 3 is bolded to
`⌈4·0.7⌉ = 3`. -/
theorem cjk_bold_table_witness :
    cjkBold 4 3 = if (3 : Int) = 1 then 1 else if (3 : Int) = 3 then
      ceilDiv (7 * 4) 10 else if 4 = 1 then 1 else ceilDiv 4 2 :=
  cjk_bold_table 4 3 (by decide) (Or.inr (Or.inr rfl))

/-- C8.  For every segment with a non-empty core of length `L` and every
strength value (also outside `{1,2,3}`), the computed bold length lies in
`[0, L]` in both modes, so the bold head and the normal tail of the core
are always well defined. -/
theorem bold_length_bound (L : Nat) (S : Int) (hL : 1 ≤ L) :
    (0 ≤ latinBold L S ∧ latinBold L S ≤ L) ∧
      (0 ≤ cjkBold L S ∧ cjkBold L S ≤ L) := by
  simp only [latinBold, cjkBold, ceilDiv]
  split_ifs <;> omega

/-- Witness for C8: at `L = 4` with the out-of-range strength `7`, both
bold lengths stay within `[0, 4]`. -/
theorem bold_length_bound_witness :
    (0 ≤ latinBold 4 7 ∧ latinBold 4 7 ≤ 4) ∧
      (0 ≤ cjkBold 4 7 ∧ cjkBold 4 7 ≤ 4) :=
  bold_length_bound 4 7 (by decide)

/-- C5.  For every text and every strength, `annotate text false strength`
yields exactly one segment per paragraph, and that segment carries the
paragraph's full text verbatim in its `normal` field with an empty `bold`
field — no bolding is applied. -/
theorem disabled_pass_through (text : Str) (strength : Int) :
    List.Forall₂ (fun p out => out = [Segment.mk [] [] p []])
      (splitNl text) (annotate text false strength) := by
  unfold annotate annotateWith
  simp only [Bool.false_eq_true, if_false]
  rw [List.forall₂_map_right_iff]
  exact (List.forall₂_same).2 (fun p _ => rfl)

theorem map_segText_latin (strength : Int) (l : List Str) :
    ((l.map (latinToken strength)).map segText) = l := by
  rw [List.map_map]
  conv_rhs => rw [← List.map_id l]
  exact List.map_congr_left (fun w _ => segText_latinToken strength w)

theorem map_segText_cjk (strength : Int) (l : List Str) :
    ((l.map (cjkSegment strength)).map segText) = l := by
  rw [List.map_map]
  conv_rhs => rw [← List.map_id l]
  exact List.map_congr_left (fun w _ => segText_cjkSegment strength w)

theorem latinTokenEmitted_eq (strength : Int) (w : Str) :
    latinTokenEmitted strength w = w ++ [' '] := by
  unfold latinTokenEmitted
  cases h : matchToken w with
  | none => rfl
  | some r =>
    obtain ⟨pre, core, suf⟩ := r
    obtain ⟨hw, hc⟩ := matchToken_some h
    by_cases hcc : core = []
    · simp [hcc]
    · simp only [hcc, if_neg, ite_false]
      rw [← hw]
      simp [List.take_append_drop]

theorem flatten_append_space (x : Str) (t : List Str) :
    ((x :: t).map (fun w => w ++ [' '])).flatten = joinSp (x :: t) ++ [' '] := by
  induction t generalizing x with
  | nil => simp [joinSp_single]
  | cons y t ih =>
    calc ((x :: y :: t).map (fun w => w ++ [' '])).flatten
        = (x ++ [' ']) ++ ((y :: t).map (fun w => w ++ [' '])).flatten := by simp
      _ = (x ++ [' ']) ++ (joinSp (y :: t) ++ [' ']) := by rw [ih y]
      _ = joinSp (x :: y :: t) ++ [' '] := by rw [joinSp_cons₂]; simp

theorem annotateWith_true (segf : Str → List Str) (text : Str) (strength : Int) :
    annotateWith segf text true strength = transformWith segf text strength := by
  unfold annotateWith
  rw [if_pos rfl]

theorem annotateWith_false (segf : Str → List Str) (text : Str) (strength : Int) :
    annotateWith segf text false strength =
      (splitNl text).map (fun p => [⟨[], [], p, []⟩]) := by
  unfold annotateWith
  rw [if_neg (fun h => Bool.noConfusion h)]

theorem transformWith_of_ne (segf : Str → List Str) (text : Str) (strength : Int)
    (ht : text ≠ []) :
    transformWith segf text strength = (splitNl text).map (processPara segf strength) := by
  unfold transformWith
  rw [if_neg ht]

/-- C3.  For every input text, strength and enabled flag, concatenating
`leading ++ bold ++ normal ++ trailing` over the segments of a paragraph,
joined by the mode-appropriate separator (one space between Latin tokens,
nothing between CJK segments), reconstructs that paragraph's original
text exactly.  `segf` is any word-segmentation facility whose segments
concatenate back to their input (true of `Intl.Segmenter` and of the
character fallback alike). -/
theorem reconstruction_per_paragraph (segf : Str → List Str)
    (hseg : ∀ p, (segf p).flatten = p) (text : Str) (enabled : Bool)
    (strength : Int) (i : Nat) (h1 : i < (splitNl text).length)
    (h2 : i < (annotateWith segf text enabled strength).length) :
    reconstructPara (hasChinese (splitNl text)[i])
      (annotateWith segf text enabled strength)[i] = (splitNl text)[i] := by
  cases enabled with
  | false =>
    simp only [annotateWith_false, List.getElem_map]
    unfold reconstructPara
    split_ifs <;> simp [segText, joinSp_single]
  | true =>
    by_cases ht : text = []
    · subst ht
      simp [annotateWith, transformWith] at h2
    · simp only [annotateWith_true, transformWith_of_ne segf text strength ht,
        List.getElem_map] at h2 ⊢
      unfold processPara reconstructPara
      by_cases hc : hasChinese (splitNl text)[i] = true
      · rw [if_pos hc, if_pos hc, map_segText_cjk, hseg]
      · rw [if_neg hc, if_neg hc, map_segText_latin, joinSp_splitSp]

/-- Witness for C3 at the concrete text `"hi\n好"` with the character
fallback segmentation, strength 2, enabled, paragraph 1 (the CJK one). -/
theorem reconstruction_per_paragraph_witness :
    reconstructPara (hasChinese (splitNl ['h', 'i', '\n', '好'])[1])
      (annotateWith charSegment ['h', 'i', '\n', '好'] true 2)[1] =
      (splitNl ['h', 'i', '\n', '好'])[1] :=
  reconstruction_per_paragraph charSegment charSegment_flatten
    ['h', 'i', '\n', '好'] true 2 1 (by decide) (by decide)

/-- C7.  For every paragraph of the transformation, CJK mode is chosen
exactly when the paragraph contains a character in U+4E00..U+9FA5, Latin
mode otherwise — one binary choice per paragraph, never mixed within it. -/
theorem mode_choice (segf : Str → List Str) (text : Str) (strength : Int)
    (i : Nat) (h1 : i < (splitNl text).length)
    (h2 : i < (transformWith segf text strength).length) :
    (transformWith segf text strength)[i] =
      if ∃ c ∈ (splitNl text)[i], 0x4E00 ≤ c.toNat ∧ c.toNat ≤ 0x9FA5
      then (segf (splitNl text)[i]).map (cjkSegment strength)
      else (splitSp (splitNl text)[i]).map (latinToken strength) := by
  by_cases ht : text = []
  · subst ht
    simp [transformWith] at h2
  · simp only [transformWith, if_neg ht, List.getElem_map] at h2 ⊢
    unfold processPara
    have hiff : hasChinese (splitNl text)[i] = true ↔
        ∃ c ∈ (splitNl text)[i], 0x4E00 ≤ c.toNat ∧ c.toNat ≤ 0x9FA5 := by
      simp [hasChinese, isChineseChar, List.any_eq_true]
    by_cases hx : ∃ c ∈ (splitNl text)[i], 0x4E00 ≤ c.toNat ∧ c.toNat ≤ 0x9FA5
    · rw [if_pos (hiff.mpr hx), if_pos hx]
    · rw [if_neg (fun h => hx (hiff.mp h)), if_neg hx]

/-- Witness for C7 at the text `"a\n好"`: paragraph 0 is Latin mode,
checked here at index 1 which contains 好 and is CJK mode. -/
theorem mode_choice_witness :
    (transformWith charSegment ['a', '\n', '好'] 2)[1] =
      if ∃ c ∈ (splitNl ['a', '\n', '好'])[1],
          0x4E00 ≤ c.toNat ∧ c.toNat ≤ 0x9FA5
      then (charSegment (splitNl ['a', '\n', '好'])[1]).map (cjkSegment 2)
      else (splitSp (splitNl ['a', '\n', '好'])[1]).map (latinToken 2) :=
  mode_choice charSegment ['a', '\n', '好'] 2 1 (by decide) (by decide)

/-- C10.  In Latin mode with bionic enabled, every token — matched or
pass-through, the last token of the paragraph included — is emitted with
one space appended to its content, so the concatenation of all emitted
contents of a Latin-mode paragraph equals the original paragraph text
followed by exactly one extra trailing space. -/
theorem latin_trailing_space (strength : Int) (p : Str)
    (_hp : hasChinese p = false) :
    (∀ w ∈ splitSp p, latinTokenEmitted strength w = w ++ [' ']) ∧
      ((splitSp p).map (latinTokenEmitted strength)).flatten = p ++ [' '] := by
  refine ⟨fun w _ => latinTokenEmitted_eq strength w, ?_⟩
  have hmap : (splitSp p).map (latinTokenEmitted strength) =
      (splitSp p).map (fun w => w ++ [' ']) :=
    List.map_congr_left (fun w _ => latinTokenEmitted_eq strength w)
  rw [hmap]
  obtain ⟨x, t, hx⟩ : ∃ x t, splitSp p = x :: t := by
    cases h : splitSp p with
    | nil => exact absurd h (splitSpGo_ne_nil p [])
    | cons x t => exact ⟨x, t, rfl⟩
  rw [hx, flatten_append_space, ← hx, joinSp_splitSp]

/-- Witness for C10 at the Latin paragraph `"a b."` with strength 2. -/
theorem latin_trailing_space_witness :
    ((splitSp ['a', ' ', 'b', '.']).map (latinTokenEmitted 2)).flatten =
      ['a', ' ', 'b', '.'] ++ [' '] :=
  (latin_trailing_space 2 ['a', ' ', 'b', '.'] (by decide)).2

/-! ### C6: the engine performs no strength validation -/

theorem latinBold_eq_two (L : Nat) (S : Int) (h3 : S ≠ 3) :
    latinBold L S = latinBold L 2 := by
  simp only [latinBold]
  split_ifs <;> omega

theorem cjkBold_eq_two (L : Nat) (S : Int) (h1 : S ≠ 1) (h3 : S ≠ 3) :
    cjkBold L S = cjkBold L 2 := by
  simp only [cjkBold]
  split_ifs <;> omega

theorem latinToken_eq_two (S : Int) (h3 : S ≠ 3) (w : Str) :
    latinToken S w = latinToken 2 w := by
  unfold latinToken
  cases h : matchToken w with
  | none => rfl
  | some r =>
    obtain ⟨pre, core, suf⟩ := r
    by_cases hcc : core = [] <;> simp [hcc, latinBold_eq_two core.length S h3]

theorem cjkSegment_eq_two (S : Int) (h1 : S ≠ 1) (h3 : S ≠ 3) (w : Str) :
    cjkSegment S w = cjkSegment 2 w := by
  unfold cjkSegment
  split_ifs <;> simp [cjkBold_eq_two w.length S h1 h3]

/-- C6 counterexample.  The out-of-range strength 5 on `"Hello"` does not
signal any error: the engine silently returns annotated output with a
non-empty bold part (`"Hel"`). -/
theorem invalid_strength_cex :
    annotate ['H', 'e', 'l', 'l', 'o'] true 5 =
      [[⟨[], ['H', 'e', 'l'], ['l', 'o'], []⟩]] := by
  decide

/-- C6 amended.  The engine does not fail fast on a strength outside
`{1,2,3}`: it has no error channel at all, and any such strength is
silently processed exactly like strength 2 (the fall-through logic
applies no strength-1 or strength-3 override). -/
theorem invalid_strength_amended (segf : Str → List Str) (text : Str)
    (enabled : Bool) (S : Int) (h1 : S ≠ 1) (h3 : S ≠ 3) :
    annotateWith segf text enabled S = annotateWith segf text enabled 2 := by
  cases enabled with
  | false => rw [annotateWith_false, annotateWith_false]
  | true =>
    rw [annotateWith_true, annotateWith_true]
    by_cases ht : text = []
    · subst ht
      rfl
    · rw [transformWith_of_ne segf text S ht, transformWith_of_ne segf text 2 ht]
      refine List.map_congr_left (fun p _ => ?_)
      unfold processPara
      by_cases hc : hasChinese p = true
      · rw [if_pos hc, if_pos hc]
        exact List.map_congr_left (fun w _ => cjkSegment_eq_two S h1 h3 w)
      · rw [if_neg hc, if_neg hc]
        exact List.map_congr_left (fun w _ => latinToken_eq_two S h3 w)

/-- Witness for C6 amended: strength 5 on `"Hi"` equals strength 2. -/
theorem invalid_strength_amended_witness :
    annotateWith charSegment ['H', 'i'] true 5 =
      annotateWith charSegment ['H', 'i'] true 2 :=
  invalid_strength_amended charSegment ['H', 'i'] true 5 (by decide) (by decide)

/-! ### C9: characters in U+9FA6..U+9FFF under the Latin tokenizer -/

theorem drop_length_sub_one : ∀ (l : Str) (h : l ≠ []),
    l.drop (l.length - 1) = [l.getLast h] := by
  intro l
  induction l with
  | nil => intro h; exact absurd rfl h
  | cons x t ih =>
    intro h
    cases t with
    | nil => rfl
    | cons y s =>
      have : (x :: y :: s).drop ((x :: y :: s).length - 1) =
          (y :: s).drop ((y :: s).length - 1) := by
        simp [List.length_cons]
      rw [this, ih (by simp)]
      simp [List.getLast_cons]

theorem ext_not_word {c : Char} (h : 0x9FA6 ≤ c.toNat) : isWordChar c = false := by
  simp only [isWordChar, decide_eq_false_iff_not]
  omega

theorem ext_core {c : Char} (h6 : 0x9FA6 ≤ c.toNat) (h9 : c.toNat ≤ 0x9FFF) :
    isCoreChar c = true := by
  simp only [isCoreChar, Bool.or_eq_true, decide_eq_true_eq]
  omega

theorem ext_not_chinese {c : Char} (h : 0x9FA6 ≤ c.toNat) :
    isChineseChar c = false := by
  simp only [isChineseChar, decide_eq_false_iff_not]
  omega

theorem latinBold_one (S : Int) : latinBold 1 S = 1 := by
  simp only [latinBold, ceilDiv]
  split_ifs <;> rfl

theorem matchToken_all_ext (w : Str) (hw : w ≠ [])
    (hall : ∀ c ∈ w, 0x9FA6 ≤ c.toNat ∧ c.toNat ≤ 0x9FFF) :
    matchToken w = some (w.take (w.length - 1), [w.getLast hw], []) := by
  have htw : w.takeWhile (fun c => !isWordChar c) = w :=
    List.takeWhile_eq_self_iff.2 (fun c hc => by
      simp [ext_not_word (hall c hc).1])
  have hattL : attemptAt w w.length = none := by
    simp [attemptAt, List.drop_length]
  have hdrop : w.drop (w.length - 1) = [w.getLast hw] := drop_length_sub_one w hw
  have hcore : isCoreChar (w.getLast hw) = true :=
    ext_core (hall _ (List.getLast_mem hw)).1 (hall _ (List.getLast_mem hw)).2
  have hattP : attemptAt w (w.length - 1) =
      some (w.take (w.length - 1), [w.getLast hw], []) := by
    simp [attemptAt, hdrop, hcore]
  unfold matchToken
  rw [htw]
  cases w with
  | nil => exact absurd rfl hw
  | cons c cs =>
    have h1 : attemptAt (c :: cs) (cs.length + 1) = none := by
      simpa using hattL
    have h2 : attemptAt (c :: cs) cs.length =
        some ((c :: cs).take cs.length, [(c :: cs).getLast hw], []) := by
      simpa using hattP
    simp only [List.length_cons, Nat.add_sub_cancel]
    cases hcs : cs.length with
    | zero =>
      rw [hcs] at h1 h2
      simp only [searchMatch, h1]
      exact h2
    | succ k =>
      rw [hcs] at h1 h2
      simp only [searchMatch, h1, h2]

/-- C9 counterexample.  The two-character paragraph `"鿦鿦"`
(U+9FE6 twice, inside U+9FA6..U+9FFF) is processed in Latin mode, but the
greedy `\W*` leading group captures the first character, so that character
lands unbolded in the `leading` field — it is not treated as a bolded core
character, contradicting the claim. -/
theorem ext_range_cex :
    hasChinese [Char.ofNat 0x9FE6, Char.ofNat 0x9FE6] = false ∧
      processPara charSegment 2 [Char.ofNat 0x9FE6, Char.ofNat 0x9FE6] =
        [⟨[Char.ofNat 0x9FE6], [Char.ofNat 0x9FE6], [], []⟩] := by
  decide

/-- C9 amended.  A paragraph of characters in U+9FA6..U+9FFF is processed
in Latin mode (they are outside the classifier's range), and a token made
of them is matched by the tokenizer — they lie in the core word-character
range — with a non-empty bold part rather than passed through; but since
these characters also count as `\W` for the surrounding groups, the greedy
leading group captures all but the last, so only the final character forms
the core and is bolded, the others passing through in the leading field. -/
theorem ext_range_amended (strength : Int) (w : Str) (hw : w ≠ [])
    (hall : ∀ c ∈ w, 0x9FA6 ≤ c.toNat ∧ c.toNat ≤ 0x9FFF) :
    hasChinese w = false ∧
      matchToken w = some (w.take (w.length - 1), [w.getLast hw], []) ∧
      latinToken strength w = ⟨w.take (w.length - 1), [w.getLast hw], [], []⟩ := by
  have hm := matchToken_all_ext w hw hall
  refine ⟨?_, hm, ?_⟩
  · simp only [hasChinese, List.any_eq_false]
    intro c hc
    simp [ext_not_chinese (hall c hc).1]
  · unfold latinToken
    rw [hm]
    simp [latinBold_one]

/-- Witness for C9 amended at the single character U+9FA6: it alone forms
the core and is fully bolded. -/
theorem ext_range_amended_witness :
    hasChinese [Char.ofNat 0x9FA6] = false ∧
      matchToken [Char.ofNat 0x9FA6] =
        some (([Char.ofNat 0x9FA6].take 0), [[Char.ofNat 0x9FA6].getLast (by decide)], []) ∧
      latinToken 2 [Char.ofNat 0x9FA6] =
        ⟨[Char.ofNat 0x9FA6].take 0, [[Char.ofNat 0x9FA6].getLast (by decide)], [], []⟩ := by
  have h := ext_range_amended 2 [Char.ofNat 0x9FA6] (by decide) (by decide)
  exact h

/-! ### C4: paragraph count versus non-empty newline-delimited runs -/

theorem splitNlGo_length (s : Str) : ∀ (inRun : Bool) (cur : Str),
    (splitNlGo inRun cur s).length = 1 + nlRunsGo inRun s := by
  induction s with
  | nil => intro inRun cur; rfl
  | cons c cs ih =>
    intro inRun cur
    by_cases hc : c = '\n'
    · subst hc
      cases inRun with
      | true => simp [splitNlGo, nlRunsGo, ih]
      | false =>
        simp [splitNlGo, nlRunsGo, ih]
        omega
    · simp [splitNlGo, nlRunsGo, hc, ih]

theorem nlRunsGo_true_of_head (s : Str) (h : s.head? ≠ some '\n') :
    nlRunsGo true s = nlRunsGo false s := by
  cases s with
  | nil => rfl
  | cons c cs =>
    have hc : c ≠ '\n' := by intro e; exact h (by simp [e])
    simp [nlRunsGo, hc]

theorem neRuns_nlRuns (s : Str) : s ≠ [] → s.getLast? ≠ some '\n' →
    neRunsGo false s = 1 + nlRunsGo true s ∧ neRunsGo true s = nlRunsGo false s := by
  induction s with
  | nil => intro h; exact absurd rfl h
  | cons c cs ih =>
    intro _ hlast
    by_cases hc : c = '\n'
    · subst hc
      have hcs : cs ≠ [] := by
        intro e
        subst e
        simp at hlast
      have hlast' : cs.getLast? ≠ some '\n' := by
        obtain ⟨d, ds, rfl⟩ := List.exists_cons_of_ne_nil hcs
        simpa using hlast
      obtain ⟨ih1, ih2⟩ := ih hcs hlast'
      exact ⟨by simpa [neRunsGo, nlRunsGo] using ih1,
        by simpa [neRunsGo, nlRunsGo] using ih1⟩
    · by_cases hcs : cs = []
      · subst hcs
        exact ⟨by simp [neRunsGo, nlRunsGo, hc], by simp [neRunsGo, nlRunsGo, hc]⟩
      · have hlast' : cs.getLast? ≠ some '\n' := by
          obtain ⟨d, ds, rfl⟩ := List.exists_cons_of_ne_nil hcs
          simpa using hlast
        obtain ⟨ih1, ih2⟩ := ih hcs hlast'
        exact ⟨by simp [neRunsGo, nlRunsGo, hc, ih2],
          by simp [neRunsGo, nlRunsGo, hc, ih2]⟩

theorem splitNlGo_pieces (s : Str) : s.getLast? ≠ some '\n' →
    ((∀ cur : Str, (cur ≠ [] ∨ (s ≠ [] ∧ s.head? ≠ some '\n')) →
        ∀ p ∈ splitNlGo false cur s, p ≠ []) ∧
      (∀ cur : Str, (cur ≠ [] ∨ s ≠ []) →
        ∀ p ∈ splitNlGo true cur s, p ≠ [])) := by
  induction s with
  | nil =>
    intro _
    constructor
    · intro cur hcur p hp
      simp only [splitNlGo, List.mem_singleton] at hp
      subst hp
      rcases hcur with h | ⟨h, _⟩
      · exact h
      · exact absurd rfl h
    · intro cur hcur p hp
      simp only [splitNlGo, List.mem_singleton] at hp
      subst hp
      rcases hcur with h | h
      · exact h
      · exact absurd rfl h
  | cons c cs ih =>
    intro hlast
    by_cases hcs : cs = []
    · subst hcs
      have hc : c ≠ '\n' := by simpa using hlast
      constructor
      · intro cur _ p hp
        simp [splitNlGo, hc] at hp
        simp [hp]
      · intro cur _ p hp
        simp [splitNlGo, hc] at hp
        simp [hp]
    · have hlast' : cs.getLast? ≠ some '\n' := by
        obtain ⟨d, ds, rfl⟩ := List.exists_cons_of_ne_nil hcs
        simpa using hlast
      obtain ⟨A, B⟩ := ih hlast'
      constructor
      · intro cur hcur p hp
        by_cases hc : c = '\n'
        · subst hc
          have hcur' : cur ≠ [] := by
            rcases hcur with h | ⟨_, hh⟩
            · exact h
            · exact absurd rfl hh
          have hstep : splitNlGo false cur ('\n' :: cs) =
              cur :: splitNlGo true [] cs := by
            simp [splitNlGo]
          rw [hstep] at hp
          rcases List.mem_cons.1 hp with rfl | hp
          · exact hcur'
          · exact B [] (Or.inr hcs) p hp
        · have hstep : splitNlGo false cur (c :: cs) =
              splitNlGo false (cur ++ [c]) cs := by
            simp [splitNlGo, hc]
          rw [hstep] at hp
          exact A (cur ++ [c]) (Or.inl (by simp)) p hp
      · intro cur hcur p hp
        by_cases hc : c = '\n'
        · subst hc
          have hstep : splitNlGo true cur ('\n' :: cs) =
              splitNlGo true cur cs := by
            simp [splitNlGo]
          rw [hstep] at hp
          exact B cur (Or.inr hcs) p hp
        · have hstep : splitNlGo true cur (c :: cs) =
              splitNlGo false (cur ++ [c]) cs := by
            simp [splitNlGo, hc]
          rw [hstep] at hp
          exact A (cur ++ [c]) (Or.inl (by simp)) p hp

theorem splitNl_length_runs (s : Str) (hs : s ≠ []) (hh : s.head? ≠ some '\n')
    (hl : s.getLast? ≠ some '\n') :
    (splitNl s).length = nonEmptyRuns s ∧ ∀ p ∈ splitNl s, p ≠ [] := by
  constructor
  · have h1 := splitNlGo_length s false []
    have h2 := (neRuns_nlRuns s hs hl).1
    have h3 := nlRunsGo_true_of_head s hh
    unfold splitNl nonEmptyRuns
    omega
  · exact (splitNlGo_pieces s hl).1 [] (Or.inr ⟨hs, hh⟩)

/-- C4 counterexample.  On the input `"\na"` (one non-empty run), the
enabled engine emits two paragraphs, one of them the empty paragraph
produced by the leading newline; and on the empty input with bionic
disabled the output is one (empty) paragraph, not the empty sequence. -/
theorem paragraph_count_cex :
    (annotate ['\n', 'a'] true 2).length = 2 ∧ nonEmptyRuns ['\n', 'a'] = 1 ∧
      [] ∈ splitNl ['\n', 'a'] ∧ (annotate [] false 2).length = 1 := by
  decide

/-- C4 amended.  With bionic enabled the empty input yields the empty
sequence; and for every non-empty input that neither starts nor ends with
a newline, the number of paragraphs equals the number of maximal
newline-delimited non-empty runs and no empty paragraph is emitted.
(Inputs that start or end with a newline gain an empty boundary
paragraph, and the disabled path maps the empty input to one empty
paragraph.) -/
theorem paragraph_count_amended (segf : Str → List Str) (text : Str)
    (strength : Int) (h0 : text ≠ []) (hh : text.head? ≠ some '\n')
    (hl : text.getLast? ≠ some '\n') :
    annotateWith segf [] true strength = [] ∧
      (annotateWith segf text true strength).length = nonEmptyRuns text ∧
      ∀ p ∈ splitNl text, p ≠ [] := by
  refine ⟨rfl, ?_, (splitNl_length_runs text h0 hh hl).2⟩
  rw [annotateWith_true, transformWith_of_ne segf text strength h0,
    List.length_map]
  exact (splitNl_length_runs text h0 hh hl).1

/-- Witness for C4 amended at the text `"a\nb"`. -/
theorem paragraph_count_amended_witness :
    (annotateWith charSegment ['a', '\n', 'b'] true 2).length =
      nonEmptyRuns ['a', '\n', 'b'] :=
  ((paragraph_count_amended charSegment ['a', '\n', 'b'] 2 (by decide)
      (by decide) (by decide)).2).1

end FocusFlow
